import Mathlib

set_option autoImplicit false

/-!
Verification development for the manifest-to-Makefile pipeline
(`samples/scripts/build_makefile.py`) and the editor filter classes
(`samples/scripts/editor/files/filters.py`).

Python strings are modelled as `List Char` (`Str`).  The fragment of the
Python `re` library that the pipeline exercises is modelled explicitly:
patterns made of literal characters and backslash escapes of punctuation
compile to the literal character list; a trailing backslash, an escape of
an alphanumeric character, or an occurrence of an unescaped metacharacter
fails to compile, which models `re.error` (patterns using metacharacter
features lie outside the modelled fragment).  `re.search` on a literal is
substring search; `re.sub` on a literal replaces every non-overlapping
occurrence left to right (an empty pattern inserts the replacement at
every position, as in Python).
-/

namespace BuildMakefile

abbrev Str := List Char

def strOf (s : String) : Str := s.toList

/-- Whitespace characters stripped by Python str.strip(). -/
def isWS (c : Char) : Bool :=
  c == ' ' || c == '\t' || c == '\n' || c == '\r' ||
  c == Char.ofNat 0x0b || c == Char.ofNat 0x0c

/-- Python str.strip(): drop leading and trailing whitespace. -/
def stripWS (s : Str) : Str :=
  ((s.dropWhile isWS).reverse.dropWhile isWS).reverse

/-- Python line.split(given a single space, maxsplit 1): none when the
string has no space, otherwise the part before the first space and the
whole remainder. -/
def splitFirstSpace : Str → Option (Str × Str)
  | [] => none
  | c :: rest =>
    if c = ' ' then some ([], rest)
    else (splitFirstSpace rest).map (fun p => (c :: p.1, p.2))

/-- Regex metacharacters of Python re (outside the modelled literal
fragment). -/
def isMeta (c : Char) : Bool :=
  c == '.' || c == '^' || c == '$' || c == '*' || c == '+' || c == '?' ||
  c == Char.ofNat 0x7b || c == Char.ofNat 0x7d || c == '[' || c == ']' ||
  c == '|' || c == '(' || c == ')'

/-- Model of re.compile on the literal fragment: escapes of punctuation
become the escaped character; a trailing backslash, an alphanumeric
escape, or an unescaped metacharacter fails to compile (re.error). -/
def reCompileL : Str → Option Str
  | [] => some []
  | ['\\'] => none
  | '\\' :: c :: rest =>
    if c.isAlphanum then none else (reCompileL rest).map (fun t => c :: t)
  | c :: rest =>
    if isMeta c || c == '\\' then none
    else (reCompileL rest).map (fun t => c :: t)

/-- Model of re.search for a compiled literal pattern: does the pattern
occur anywhere in the string? -/
def containsSub (p : Str) : Str → Bool
  | [] => p.isEmpty
  | c :: rest => p.isPrefixOf (c :: rest) || containsSub p rest

/-- One left-to-right pass replacing every non-overlapping occurrence of
the nonempty literal pattern p by rep.  The Nat argument is structural
fuel; each step consumes at least one character, so fuel equal to the
string length (as supplied by subLit) is never exhausted. -/
def subLitGo (p rep : Str) : Nat → Str → Str
  | _, [] => []
  | 0, s => s
  | fuel + 1, c :: rest =>
    if p.isPrefixOf (c :: rest) && !p.isEmpty then
      rep ++ subLitGo p rep fuel (rest.drop (p.length - 1))
    else
      c :: subLitGo p rep fuel rest

def subLit (p rep s : Str) : Str := subLitGo p rep s.length s

/-- Model of re.sub for a compiled literal pattern: an empty pattern
inserts the replacement at every position (Python semantics); a nonempty
pattern replaces every non-overlapping occurrence left to right. -/
def reSubL (p rep s : Str) : Str :=
  if p.isEmpty then rep ++ s.flatMap (fun c => [c] ++ rep)
  else subLit p rep s

/-- A trace entry recorded by normalize_path: the Python tuples
("replace", find_pattern, replace_with) and ("ignore", filter_pattern). -/
inductive Applied where
  | replace (find repl : Str)
  | ignore (pat : Str)
  deriving DecidableEq, Repr

/-- The filter configuration loaded from filters.json into the module
globals REPLACE_FILTERS and IGNORE_FILTERS. -/
structure FilterConfig where
  replaceFilters : List (Str × Str)
  ignoreFilters : List Str

/-- One iteration of the replacement loop of normalize_path: an invalid
pattern is skipped; a substitution that changes the string is recorded
in the trace and becomes the new current path. -/
def replaceStep (acc : Str × List Applied) (fr : Str × Str) : Str × List Applied :=
  match reCompileL fr.1 with
  | none => acc
  | some c =>
    let newPath := reSubL c fr.2 acc.1
    if newPath ≠ acc.1 then (newPath, acc.2 ++ [Applied.replace fr.1 fr.2]) else acc

/-- The ignore loop of normalize_path: the first valid pattern found in
the current path records an ignore trace entry and returns the empty
(filtered-out) path; invalid patterns are skipped. -/
def checkIgnores : List Str → Str → List Applied → Str × List Applied
  | [], cur, app => (cur, app)
  | p :: rest, cur, app =>
    match reCompileL p with
    | none => checkIgnores rest cur app
    | some c =>
      if containsSub c cur then ([], app ++ [Applied.ignore p])
      else checkIgnores rest cur app

/-- normalize_path from build_makefile.py: replacements first (cascading),
then ignore filters on the final result.  The source_name argument is
accepted and unused, as in the source. -/
def normalizePath (cfg : FilterConfig) (sourceName : Str) (path : Str) : Str × List Applied :=
  let _ := sourceName
  let ra := cfg.replaceFilters.foldl replaceStep (path, [])
  checkIgnores cfg.ignoreFilters ra.1 ra.2

/-- The fixed root segment prepended to manifest filenames. -/
def dataRoot : Str := strOf "data/"

/-- The per-source command template of parse_params_file. -/
def commandFor (sourceName args : Str) : Str :=
  strOf "./scripts/" ++ sourceName ++ strOf "/download.sh $@ " ++ args

/-- One iteration of the line loop of parse_params_file: strip the line,
skip it when blank or without a separating space, otherwise append one
(target, command, source) record. -/
def lineStep (sourceName : Str) (rules : List (Str × Str × Str)) (rawLine : Str) :
    List (Str × Str × Str) :=
  let line := stripWS rawLine
  if line.isEmpty then rules
  else
    match splitFirstSpace line with
    | none => rules
    | some (filename, args) =>
      rules ++ [(dataRoot ++ filename, commandFor sourceName args, sourceName)]

/-- parse_params_file: an absent manifest yields the empty list; manifest
contents are given as the list of its lines. -/
def parseParamsFile (contents : Option (List Str)) (sourceName : Str) :
    List (Str × Str × Str) :=
  match contents with
  | none => []
  | some lines => lines.foldl (lineStep sourceName) []

/-- One candidate stored under a normalized key: the Python 4-tuple
(target, command, source, applied_filters). -/
structure Entry where
  target : Str
  command : Str
  source : Str
  applied : List Applied
  deriving DecidableEq, Repr

/-- The OrderedDict of generate_targets_dict: keys in first-insertion
order, each holding the candidate list in append order. -/
abbrev Targets := List (Str × List Entry)

def insertEntry : Targets → Str → Entry → Targets
  | [], k, e => [(k, [e])]
  | (k0, es) :: rest, k, e =>
    if k0 = k then (k0, es ++ [e]) :: rest
    else (k0, es) :: insertEntry rest k e

def lookupT : Targets → Str → Option (List Entry)
  | [], _ => none
  | (k0, es) :: rest, k => if k0 = k then some es else lookupT rest k

/-- The path handed to normalize_path: the target with the data/ root
stripped when present. -/
def recPath (target : Str) : Str :=
  if dataRoot.isPrefixOf target then target.drop 5 else target

/-- One iteration of the record loop of generate_targets_dict: normalize,
skip when filtered out (empty key), otherwise append the candidate under
its normalized key. -/
def recordStep (cfg : FilterConfig) (ts : Targets) (r : Str × Str × Str) : Targets :=
  let nk := normalizePath cfg r.2.2 (recPath r.1)
  if nk.1.isEmpty then ts
  else insertEntry ts nk.1 ⟨r.1, r.2.1, r.2.2, nk.2⟩

/-- generate_targets_dict: fold the sources in caller order, and within a
source its parsed records in manifest order.  Manifest contents are
looked up by downloader name (the source reads .cache/<name>.params). -/
def generateTargetsDict (cfg : FilterConfig) (manifests : Str → Option (List Str))
    (downloaders : List Str) : Targets :=
  downloaders.foldl
    (fun ts d => (parseParamsFile (manifests d) d).foldl (recordStep cfg) ts) []

/-- The targets part of the JSON dump (dump branch of main): one entry per
candidate carrying target, source and applied_filters. -/
def dumpTargets (ts : Targets) : List (Str × List (Str × Str × List Applied)) :=
  ts.map (fun g => (g.1, g.2.map (fun e => (e.target, e.source, e.applied))))

/-- The editor filter classes of editor/files/filters.py: IgnoreFilter,
EditFilter and FiltersChain. -/
inductive EFilter where
  | ignore (pat : Str)
  | edit (find rep : Str)
  | chain (fs : List EFilter)

mutual

/-- Filter.apply: IgnoreFilter raises StopIteration (modelled as error)
when its compiled pattern is found; EditFilter substitutes; a filter whose
pattern failed to compile returns the path unchanged; FiltersChain feeds
the path through its filters in list order. -/
def applyF : EFilter → Str → Except Unit Str
  | .ignore pat, p =>
    (match reCompileL pat with
     | some c => if containsSub c p then .error () else .ok p
     | none => .ok p)
  | .edit find rep, p =>
    (match reCompileL find with
     | some c => .ok (reSubL c rep p)
     | none => .ok p)
  | .chain fs, p => applyChain fs p

/-- The loop body of FiltersChain.apply: current = filter.apply(current)
for each filter in list order; StopIteration propagates immediately. -/
def applyChain : List EFilter → Str → Except Unit Str
  | [], p => .ok p
  | f :: fs, p =>
    match applyF f p with
    | .ok q => applyChain fs q
    | .error e => .error e

end

/-- Python target.replace of a single dollar by two: every occurrence of
the character is doubled. -/
def escDollar : Str → Str
  | [] => []
  | c :: r => if c = '$' then '$' :: '$' :: escDollar r else c :: escDollar r

/-- os.path.dirname for POSIX paths: the part before the last slash, with
trailing slashes stripped unless the head is all slashes. -/
def dirname (p : Str) : Str :=
  let tailLen := (p.reverse.takeWhile (fun c => c ≠ '/')).length
  let head := p.take (p.length - tailLen)
  if !head.isEmpty && head.any (fun c => c ≠ '/') then
    (head.reverse.dropWhile (fun c => c = '/')).reverse
  else head

/-- Lexicographic comparison by code point, as Python string sorting. -/
def strLe : Str → Str → Bool
  | [], _ => true
  | _ :: _, [] => false
  | a :: as, b :: bs => if a = b then strLe as bs else decide (a < b)

def insertSorted (x : Str) : List Str → List Str
  | [] => [x]
  | y :: ys => if strLe x y then x :: y :: ys else y :: insertSorted x ys

/-- Python sorted() on a list of strings. -/
def sortStr (l : List Str) : List Str := l.foldr insertSorted []

/-- Python sep.join. -/
def joinWith (sep : Str) : List Str → Str
  | [] => []
  | [x] => x
  | x :: y :: rest => x ++ sep ++ joinWith sep (y :: rest)

/-- A Python value held in a candidate tuple. -/
inductive PyVal where
  | vs (v : Str)
  | vf (v : List Applied)
  deriving DecidableEq, Repr

/-- The candidate as the Python 4-tuple appended by generate_targets_dict:
(target, command, source, applied_filters). -/
def Entry.toTuple (e : Entry) : List PyVal :=
  [.vs e.target, .vs e.command, .vs e.source, .vf e.applied]

def valueErrMany : Str := strOf "ValueError: too many values to unpack (expected 3)"

def valueErrFew : Str := strOf "ValueError: not enough values to unpack (expected 3)"

/-- Python tuple unpacking into three names, as in the statement that
binds _, command, source: succeeds only on arity exactly 3. -/
def unpack3 (t : List PyVal) : Except Str (PyVal × PyVal × PyVal) :=
  match t with
  | [a, b, c] => .ok (a, b, c)
  | t => if t.length > 3 then .error valueErrMany else .error valueErrFew

/-- Rendering of an unpacked component into a printed line (only string
components are ever rendered in the source). -/
def PyVal.asStr : PyVal → Str
  | .vs v => v
  | .vf _ => []

/-- The mutable state of the Makefile branch of main: the lines printed so
far and the dir_deps dictionary (insertion ordered). -/
structure EmitState where
  out : List Str
  dirDeps : List (Str × List Str)
  deriving DecidableEq, Repr

def insertDir : List (Str × List Str) → Str → Str → List (Str × List Str)
  | [], d, t => [(d, [t])]
  | (d0, ts) :: rest, d, t =>
    if d0 = d then (d0, ts ++ [t]) :: rest else (d0, ts) :: insertDir rest d t

def headerSuffix : Str := strOf ": scripts/filters.json"

def mkdirLine : Str := strOf "\t@mkdir -p $(dir $@)"

/-- The multi-candidate command loop of main (for i, (_, command, source)
in enumerate(sources)): every iteration unpacks a 4-tuple into three
names, so the first iteration raises; the intended rendering appends the
OR connector to every command except the last. -/
def emitCmds (total : Nat) : List (List PyVal) → Nat → List Str → List Str × Option Str
  | [], _, out => (out, none)
  | t :: rest, i, out =>
    match unpack3 t with
    | .error m => (out, some m)
    | .ok (_, cmd, _) =>
      let line := if i < total - 1 then '\t' :: (cmd.asStr ++ strOf " || \\")
                  else '\t' :: cmd.asStr
      emitCmds total rest (i + 1) (out ++ [line])

/-- One iteration of the per-target loop of main: take the first
candidate's original target, escape it, record its parent directory,
print the header and mkdir lines, then emit the command block; the
single-candidate branch also unpacks the 4-tuple into three names and so
raises before printing any command. -/
def emitGroup (st : EmitState) (g : Str × List Entry) : EmitState × Option Str :=
  match g.2 with
  | [] => (st, some (strOf "IndexError: list index out of range"))
  | e :: es =>
    let target := e.target
    let escaped := escDollar target
    let parentDir := dirname target
    let dd :=
      if !parentDir.isEmpty && parentDir ≠ strOf "data" then
        insertDir st.dirDeps parentDir target
      else st.dirDeps
    let out1 := st.out ++ [escaped ++ headerSuffix, mkdirLine]
    if es.isEmpty then
      match unpack3 e.toTuple with
      | .error m => ({ out := out1, dirDeps := dd }, some m)
      | .ok (_, cmd, src) =>
        ({ out := out1 ++ ['\t' :: cmd.asStr, strOf "# Source: " ++ src.asStr, ([] : Str)],
           dirDeps := dd }, none)
    else
      let srcLine := strOf "# Sources: " ++ joinWith (strOf ", ") ((e :: es).map Entry.source)
      match emitCmds (e :: es).length ((e :: es).map Entry.toTuple) 0 (out1 ++ [srcLine]) with
      | (o, some m) => ({ out := o, dirDeps := dd }, some m)
      | (o, none) => ({ out := o ++ [([] : Str)], dirDeps := dd }, none)

/-- The per-target loop of main; an uncaught exception aborts it. -/
def emitLoop : List (Str × List Entry) → EmitState → EmitState × Option Str
  | [], st => (st, none)
  | g :: rest, st =>
    match emitGroup st g with
    | (st1, some m) => (st1, some m)
    | (st1, none) => emitLoop rest st1

def echoLine (directory : Str) (n : Nat) : Str :=
  strOf "\t@echo \"Downloaded " ++ strOf (Nat.repr n) ++ strOf " files to "
    ++ directory ++ strOf "\""

/-- One directory aggregate rule: escaped directory header with escaped
dependencies sorted lexicographically, an echo action reporting the file
count, then a blank line. -/
def dirRule (dd : List (Str × List Str)) (d : Str) : List Str :=
  let members := ((dd.lookup d).getD [])
  [escDollar d ++ strOf ": " ++ joinWith (strOf " ") ((sortStr members).map escDollar),
   echoLine d members.length,
   ([] : Str)]

/-- The directory-targets block of main after the comment line: nothing
when dir_deps is empty, otherwise the .PHONY declaration over the sorted
escaped directories, a blank line, and the aggregate rules sorted by
directory name. -/
def emitDirSection (dd : List (Str × List Str)) : List Str :=
  if dd.isEmpty then []
  else
    let dirs := sortStr (dd.map Prod.fst)
    [strOf ".PHONY: " ++ joinWith (strOf " ") (dirs.map escDollar), ([] : Str)]
      ++ dirs.flatMap (dirRule dd)

def preambleLines (downloaders : List Str) : List Str :=
  [strOf "# Generated Makefile from params files",
   strOf "# Sources: " ++ joinWith (strOf ", ") downloaders ++ strOf " (in priority order)",
   ([] : Str)]

/-- The Makefile branch of main: resolve the targets, run the per-target
loop from the preamble, and only when it finishes without raising print
the directory-targets block.  The second component is the uncaught
exception, if any. -/
def emitMakefile (cfg : FilterConfig) (manifests : Str → Option (List Str))
    (downloaders : List Str) : EmitState × Option Str :=
  let targets := generateTargetsDict cfg manifests downloaders
  match emitLoop targets { out := preambleLines downloaders, dirDeps := [] } with
  | (st, some m) => (st, some m)
  | (st, none) =>
    ({ st with out := st.out ++ [strOf "# Directory targets"] ++ emitDirSection st.dirDeps },
     none)

/-! Specification-style reference functions used to state theorems. -/

/-- Per-line reading of a manifest line, used to characterise the append
loop of parse_params_file: a blank or space-free line yields nothing, any
other line yields exactly one record. -/
def lineRecords (sourceName rawLine : Str) : List (Str × Str × Str) :=
  let line := stripWS rawLine
  if line.isEmpty then []
  else
    match splitFirstSpace line with
    | none => []
    | some (filename, args) =>
      [(dataRoot ++ filename, commandFor sourceName args, sourceName)]

/-- The pure rewriting effect of one replace filter, without the trace. -/
def rewriteOne (cur : Str) (fr : Str × Str) : Str :=
  match reCompileL fr.1 with
  | none => cur
  | some c => reSubL c fr.2 cur

/-- The cascaded rewriting of a replace-filter list: each output feeds the
next filter's input. -/
def rewriteAll (rs : List (Str × Str)) (p : Str) : Str := rs.foldl rewriteOne p

/-- The trace the replacement loop is expected to record: one entry, with
the filter's find/to values, for exactly the filters that change the
string, in application order. -/
def traceOf : List (Str × Str) → Str → List Applied
  | [], _ => []
  | fr :: rest, p =>
    let q := rewriteOne p fr
    if q ≠ p then Applied.replace fr.1 fr.2 :: traceOf rest q else traceOf rest p

/-- The candidates a single record contributes under key k: one when its
normalized path is the (non-empty) key, none otherwise. -/
def recEntry (cfg : FilterConfig) (k : Str) (r : Str × Str × Str) : List Entry :=
  let nk := normalizePath cfg r.2.2 (recPath r.1)
  if nk.1.isEmpty then []
  else if nk.1 = k then [⟨r.1, r.2.1, r.2.2, nk.2⟩] else []

/-- All candidates source d contributes under key k, in manifest order. -/
def srcEntries (cfg : FilterConfig) (m : Str → Option (List Str)) (k d : Str) : List Entry :=
  (parseParamsFile (m d) d).flatMap (recEntry cfg k)

/-- Append new candidates to an optional bucket, creating it when the
addition is non-empty: the effect of the record loop on one key. -/
def optApp (o : Option (List Entry)) (l : List Entry) : Option (List Entry) :=
  if l.isEmpty then o else some (o.getD [] ++ l)

/-- The edit (replace) phase the claim attributes to FiltersChain: all
Edit filters applied first, in list order, to a cascading current path. -/
def editPass (fs : List EFilter) (p : Str) : Str :=
  fs.foldl
    (fun cur f =>
      match f with
      | .edit find rep =>
        (match reCompileL find with
         | some c => reSubL c rep cur
         | none => cur)
      | _ => cur) p

/-- Does some Ignore filter of the list match the given (fully rewritten)
path? -/
def ignoreHits (fs : List EFilter) (p : Str) : Bool :=
  fs.any
    (fun f =>
      match f with
      | .ignore pat =>
        (match reCompileL pat with
         | some c => containsSub c p
         | none => false)
      | _ => false)

/-- Claimed semantics of FiltersChain, following the claim's words: apply
all Replace (Edit) filters first in list order, then the Ignore filters
against the fully-rewritten path, dropping on a match.  (Nested chains do
not occur in the inputs this is compared on.) -/
def twoPhase (fs : List EFilter) (p : Str) : Except Unit Str :=
  let q := editPass fs p
  if ignoreHits fs q then .error () else .ok q

/-! Concrete scenario inputs used by witnesses and counterexamples. -/

/-- The empty filter configuration. -/
def cfg0 : FilterConfig := ⟨[], []⟩

/-- Manifests of the priority scenario: dpreview and wikimedia both offer
cam1.jpg with different argument strings. -/
def mA : Str → Option (List Str) :=
  fun d =>
    if d = strOf "dpreview" then some [strOf "cam1.jpg --id 1"]
    else if d = strOf "wikimedia" then some [strOf "cam1.jpg --id 2"]
    else none

/-- Manifest of the directory scenario: one source offering two files in
the same directory. -/
def mD : Str → Option (List Str) :=
  fun d =>
    if d = strOf "s" then some [strOf "device/a.jpg --x", strOf "device/b.jpg --y"]
    else none

/-- A configuration with one replace filter rewriting cam to x. -/
def cfgR : FilterConfig := ⟨[(strOf "cam", strOf "x")], []⟩

/-- Manifests where two sources offer records with different original
paths that normalize (under cfgR) to the same key x1.jpg. -/
def mR : Str → Option (List Str) :=
  fun d =>
    if d = strOf "dpreview" then some [strOf "cam1.jpg --id 1"]
    else if d = strOf "wikimedia" then some [strOf "x1.jpg --id 9"]
    else none

/-- A configuration with one ignore filter on tmp. -/
def cfgI : FilterConfig := ⟨[], [strOf "tmp"]⟩

/-- Manifest offering a path that the tmp ignore filter drops. -/
def mT : Str → Option (List Str) :=
  fun d => if d = strOf "s" then some [strOf "shot.tmp --x"] else none

/-- Manifest offering a path containing a literal dollar character. -/
def mS : Str → Option (List Str) :=
  fun d => if d = strOf "s" then some [strOf "we$ird/a$.jpg --x"] else none

/-! Helper lemmas. -/

theorem lineStep_eq (d : Str) (rules : List (Str × Str × Str)) (raw : Str) :
    lineStep d rules raw = rules ++ lineRecords d raw := by
  simp only [lineStep, lineRecords]
  split
  · simp
  · split <;> simp

theorem parseParamsFile_some (d : Str) (lines : List Str) :
    parseParamsFile (some lines) d = lines.flatMap (lineRecords d) := by
  show lines.foldl (lineStep d) [] = _
  suffices h : ∀ acc, lines.foldl (lineStep d) acc = acc ++ lines.flatMap (lineRecords d) by
    simpa using h []
  induction lines with
  | nil => intro acc; simp
  | cons l ls ih =>
    intro acc
    simp [List.foldl_cons, lineStep_eq, ih, List.flatMap_cons]

theorem splitFirstSpace_eq_none_iff (s : Str) : splitFirstSpace s = none ↔ ' ' ∉ s := by
  induction s with
  | nil => simp [splitFirstSpace]
  | cons c rest ih =>
    simp only [splitFirstSpace, List.mem_cons]
    by_cases h : c = ' '
    · simp [h]
    · have h2 : ¬ ' ' = c := fun e => h e.symm
      rw [if_neg h]
      cases hr : splitFirstSpace rest with
      | none =>
        have hmem : ' ' ∉ rest := ih.mp hr
        simp [h2, hmem]
      | some q =>
        have hmem : ' ' ∈ rest := by
          by_contra hc
          rw [ih.mpr hc] at hr
          exact Option.noConfusion hr
        simp [hmem]

theorem splitFirstSpace_append (fn args : Str) (h : ' ' ∉ fn) :
    splitFirstSpace (fn ++ ' ' :: args) = some (fn, args) := by
  induction fn with
  | nil => simp [splitFirstSpace]
  | cons c cs ih =>
    have hc : ¬ c = ' ' := by
      intro e
      exact h (e ▸ List.mem_cons_self c cs)
    simp [splitFirstSpace, hc, ih (fun m => h (List.mem_cons_of_mem _ m))]

theorem replaceStep_eq (p : Str) (app : List Applied) (fr : Str × Str) :
    replaceStep (p, app) fr =
      (rewriteOne p fr,
       if rewriteOne p fr ≠ p then app ++ [Applied.replace fr.1 fr.2] else app) := by
  rcases hx : reCompileL fr.1 with _ | c
  · simp [replaceStep, rewriteOne, hx]
  · simp only [replaceStep, rewriteOne, hx]
    split <;> simp_all

theorem foldl_replaceStep (rs : List (Str × Str)) (p : Str) (app : List Applied) :
    rs.foldl replaceStep (p, app) = (rewriteAll rs p, app ++ traceOf rs p) := by
  induction rs generalizing p app with
  | nil => simp [rewriteAll, traceOf]
  | cons fr rest ih =>
    simp only [List.foldl_cons, replaceStep_eq, rewriteAll, List.foldl_cons, traceOf]
    by_cases h : rewriteOne p fr = p
    · simp only [h, ne_eq, not_true_eq_false, if_neg, ite_false]
      simpa [rewriteAll, h] using ih p app
    · simp only [ne_eq, h, not_false_eq_true, if_pos, ite_true]
      simpa [rewriteAll, h] using ih (rewriteOne p fr) (app ++ [Applied.replace fr.1 fr.2])

/-! Claim theorems for the Filter Chain and the Loader. -/

/-- C8: parse_params_file returns an empty record list for an absent
manifest; each line is stripped, a blank or space-free line is skipped
silently, and a line with a separating space yields exactly one record
whose path prefixes the filename with data/ and whose args is the whole
remainder after the first space. -/
theorem loader_line_contract :
    (∀ d, parseParamsFile none d = [])
    ∧ (∀ lines d, parseParamsFile (some lines) d = lines.flatMap (lineRecords d))
    ∧ (∀ s : Str, splitFirstSpace s = none ↔ ' ' ∉ s)
    ∧ (∀ d raw, splitFirstSpace (stripWS raw) = none → lineRecords d raw = [])
    ∧ (∀ d raw fn args, stripWS raw = fn ++ ' ' :: args → ' ' ∉ fn →
        lineRecords d raw = [(dataRoot ++ fn, commandFor d args, d)]) := by
  refine ⟨fun d => rfl, fun lines d => parseParamsFile_some d lines,
    splitFirstSpace_eq_none_iff, ?_, ?_⟩
  · intro d raw h
    simp only [lineRecords]
    split
    · rfl
    · rw [h]
  · intro d raw fn args he hn
    have hsp := splitFirstSpace_append fn args hn
    have hne : (fn ++ ' ' :: args).isEmpty = false := by
      cases fn <;> rfl
    simp [lineRecords, he, hsp, hne]

/-- C8 witness: a concrete manifest line with a separating space produces
exactly the record the theorem describes, and a space-free line none. -/
theorem loader_line_contract_witness :
    lineRecords (strOf "dpreview") (strOf "cam1.jpg --id 1")
      = [(dataRoot ++ strOf "cam1.jpg", commandFor (strOf "dpreview") (strOf "--id 1"),
          strOf "dpreview")]
    ∧ lineRecords (strOf "dpreview") (strOf "lonely") = [] := by
  constructor
  · exact loader_line_contract.2.2.2.2 (strOf "dpreview") (strOf "cam1.jpg --id 1")
      (strOf "cam1.jpg") (strOf "--id 1") (by decide) (by decide)
  · exact loader_line_contract.2.2.2.1 (strOf "dpreview") (strOf "lonely") (by decide)

/-- C6: replace filters are applied first and cascade (each output feeds
the next filter's input); each application that changes the string records
exactly one trace entry carrying its find/to values, and an application
that leaves the string unchanged records nothing; on the concrete chained
filters (a to b) then (b to c) the input a.jpg becomes c.jpg with both
firings in the trace. -/
theorem replace_cascade_and_trace :
    (∀ p app fr, replaceStep (p, app) fr =
        (rewriteOne p fr,
         if rewriteOne p fr ≠ p then app ++ [Applied.replace fr.1 fr.2] else app))
    ∧ (∀ rs p app, rs.foldl replaceStep (p, app) = (rewriteAll rs p, app ++ traceOf rs p))
    ∧ (∀ rs1 rs2 p, rewriteAll (rs1 ++ rs2) p = rewriteAll rs2 (rewriteAll rs1 p))
    ∧ normalizePath ⟨[(strOf "a", strOf "b"), (strOf "b", strOf "c")], []⟩ [] (strOf "a.jpg")
        = (strOf "c.jpg",
           [Applied.replace (strOf "a") (strOf "b"),
            Applied.replace (strOf "b") (strOf "c")]) := by
  refine ⟨replaceStep_eq, foldl_replaceStep, ?_, by decide⟩
  intro rs1 rs2 p
  simp [rewriteAll, List.foldl_append]

/-- C7: a filter whose pattern fails to compile is an identity operation
throughout: in normalize_path an invalid replace filter changes neither
path nor trace, an invalid ignore filter never drops, and the editor's
IgnoreFilter and EditFilter return the path unchanged without raising. -/
theorem invalid_pattern_noop (pat : Str) (h : reCompileL pat = none) :
    (∀ repl rs igs src p,
        normalizePath ⟨(pat, repl) :: rs, igs⟩ src p = normalizePath ⟨rs, igs⟩ src p)
    ∧ (∀ igs cur app, checkIgnores (pat :: igs) cur app = checkIgnores igs cur app)
    ∧ (∀ p, applyF (.ignore pat) p = .ok p)
    ∧ (∀ rep p, applyF (.edit pat rep) p = .ok p) := by
  refine ⟨?_, ?_, ?_, ?_⟩
  · intro repl rs igs src p
    simp [normalizePath, List.foldl_cons, replaceStep, h]
  · intro igs cur app
    simp [checkIgnores, h]
  · intro p
    simp [applyF, h]
  · intro rep p
    simp [applyF, h]

/-- C7 witness: the pattern consisting of a lone opening parenthesis fails
to compile and the four identities hold on concrete inputs. -/
theorem invalid_pattern_noop_witness :
    normalizePath ⟨[(strOf "(", strOf "x")], [strOf "("]⟩ [] (strOf "a(b.jpg")
        = normalizePath ⟨[], []⟩ [] (strOf "a(b.jpg")
    ∧ applyF (.ignore (strOf "(")) (strOf "a(b.jpg") = .ok (strOf "a(b.jpg")
    ∧ applyF (.edit (strOf "(") (strOf "x")) (strOf "a(b.jpg") = .ok (strOf "a(b.jpg") := by
  have h : reCompileL (strOf "(") = none := by decide
  have hm := invalid_pattern_noop (strOf "(") h
  refine ⟨?_, hm.2.2.1 (strOf "a(b.jpg"), hm.2.2.2 (strOf "x") (strOf "a(b.jpg")⟩
  calc normalizePath ⟨[(strOf "(", strOf "x")], [strOf "("]⟩ [] (strOf "a(b.jpg")
      = normalizePath ⟨[], [strOf "("]⟩ [] (strOf "a(b.jpg") :=
        hm.1 (strOf "x") [] [strOf "("] [] (strOf "a(b.jpg")
    _ = normalizePath ⟨[], []⟩ [] (strOf "a(b.jpg") := by
        simp [normalizePath, hm.2.1 [] _ []]

/-- C5 counterexample: on the chain consisting of IgnoreFilter b followed
by EditFilter a to b, applied to the path a, FiltersChain.apply rewrites
to b and keeps the candidate, while the claimed two-phase order (edits
first, then ignores on the rewritten path) would drop it. -/
theorem chain_not_two_phase :
    applyF (.chain [.ignore (strOf "b"), .edit (strOf "a") (strOf "b")]) (strOf "a")
        = .ok (strOf "b")
    ∧ twoPhase [.ignore (strOf "b"), .edit (strOf "a") (strOf "b")] (strOf "a")
        = .error () := ⟨rfl, rfl⟩

/-- C5 amended: FiltersChain applies its nested filters strictly in list
order, each filter's output feeding the next filter's input with Ignore
and Edit interleaved as listed, and a Drop raised by any nested filter
propagates outward immediately, dropping the candidate; concretely an
edit followed by an ignore of its output drops. -/
theorem chain_applies_in_list_order :
    (∀ fs p, applyF (.chain fs) p = applyChain fs p)
    ∧ (∀ f fs p, applyChain (f :: fs) p =
        match applyF f p with
        | .ok q => applyChain fs q
        | .error e => .error e)
    ∧ (∀ fs1 fs2 p, applyChain (fs1 ++ fs2) p =
        match applyChain fs1 p with
        | .ok q => applyChain fs2 q
        | .error e => .error e)
    ∧ applyF (.chain [.edit (strOf "a") (strOf "b"), .ignore (strOf "b"),
        .edit (strOf "x") (strOf "y")]) (strOf "a") = .error () := by
  refine ⟨fun fs p => rfl, fun f fs p => rfl, ?_, rfl⟩
  intro fs1 fs2 p
  induction fs1 generalizing p with
  | nil => rfl
  | cons f fs ih =>
    simp only [List.cons_append, applyChain]
    cases applyF f p <;> simp [ih]

/-! Resolver lemmas: the per-key content of generate_targets_dict. -/

theorem lookupT_insertEntry (ts : Targets) (k kq : Str) (e : Entry) :
    lookupT (insertEntry ts k e) kq =
      if kq = k then some ((lookupT ts k).getD [] ++ [e]) else lookupT ts kq := by
  induction ts with
  | nil =>
    by_cases h : kq = k
    · simp [insertEntry, lookupT, h]
    · have h2 : ¬ k = kq := fun e => h e.symm
      simp [insertEntry, lookupT, h, h2]
  | cons p rest ih =>
    obtain ⟨k0, es⟩ := p
    by_cases hk : k0 = k <;> by_cases hq : kq = k <;> by_cases h0 : k0 = kq <;>
      simp_all [insertEntry, lookupT]

theorem optApp_append (o : Option (List Entry)) (l1 l2 : List Entry) :
    optApp (optApp o l1) l2 = optApp o (l1 ++ l2) := by
  rcases l1 with _ | ⟨x, l1⟩
  · simp [optApp]
  · rcases l2 with _ | ⟨y, l2⟩
    · simp [optApp]
    · simp [optApp]

theorem lookupT_recordStep (cfg : FilterConfig) (ts : Targets) (r : Str × Str × Str) (k : Str) :
    lookupT (recordStep cfg ts r) k = optApp (lookupT ts k) (recEntry cfg k r) := by
  by_cases h1 : (normalizePath cfg r.2.2 (recPath r.1)).1.isEmpty
  · simp [recordStep, recEntry, h1, optApp]
  · have hne : ¬ (normalizePath cfg r.2.2 (recPath r.1)).1 = [] := by
      simpa [List.isEmpty_iff] using h1
    by_cases h2 : (normalizePath cfg r.2.2 (recPath r.1)).1 = k
    · have hk : ¬ k = [] := h2 ▸ hne
      simp [recordStep, recEntry, h1, h2, lookupT_insertEntry, optApp, hk]
    · have h2s : ¬ k = (normalizePath cfg r.2.2 (recPath r.1)).1 := fun e => h2 e.symm
      simp [recordStep, recEntry, h1, h2, h2s, lookupT_insertEntry, optApp]

theorem lookupT_foldl_recordStep (cfg : FilterConfig) (rs : List (Str × Str × Str))
    (ts : Targets) (k : Str) :
    lookupT (rs.foldl (recordStep cfg) ts) k
      = optApp (lookupT ts k) (rs.flatMap (recEntry cfg k)) := by
  induction rs generalizing ts with
  | nil => simp [optApp]
  | cons r rs ih =>
    simp only [List.foldl_cons, List.flatMap_cons, ih, lookupT_recordStep, optApp_append]

theorem lookupT_generateTargetsDict (cfg : FilterConfig) (m : Str → Option (List Str))
    (ds : List Str) (k : Str) :
    lookupT (generateTargetsDict cfg m ds) k
      = optApp none (ds.flatMap (srcEntries cfg m k)) := by
  suffices h : ∀ ts, lookupT
      (ds.foldl (fun ts d => (parseParamsFile (m d) d).foldl (recordStep cfg) ts) ts) k
      = optApp (lookupT ts k) (ds.flatMap (srcEntries cfg m k)) by
    simpa [generateTargetsDict, lookupT] using h []
  induction ds with
  | nil => intro ts; simp [optApp]
  | cons d ds ih =>
    intro ts
    simp only [List.foldl_cons, List.flatMap_cons, ih, lookupT_foldl_recordStep,
      optApp_append, srcEntries]

theorem parse_records_source (c : Option (List Str)) (d : Str) :
    ∀ r ∈ parseParamsFile c d, r.2.2 = d := by
  intro r hr
  cases c with
  | none => cases hr
  | some lines =>
    rw [parseParamsFile_some] at hr
    simp only [List.mem_flatMap] at hr
    obtain ⟨line, _, hr2⟩ := hr
    simp only [lineRecords] at hr2
    split at hr2
    · cases hr2
    · split at hr2
      · cases hr2
      · rw [List.mem_singleton] at hr2
        rw [hr2]

theorem srcEntries_source (cfg : FilterConfig) (m : Str → Option (List Str)) (k d : Str) :
    ∀ e ∈ srcEntries cfg m k d, e.source = d := by
  intro e he
  simp only [srcEntries, List.mem_flatMap] at he
  obtain ⟨r, hr, he2⟩ := he
  have hsrc : r.2.2 = d := parse_records_source (m d) d r hr
  simp only [recEntry] at he2
  split at he2
  · cases he2
  · split at he2
    · rw [List.mem_singleton] at he2
      rw [he2]
      exact hsrc
    · cases he2

theorem mem_insertEntry {ts : Targets} {k : Str} {e : Entry} {kq : Str} {lq : List Entry}
    (h : (kq, lq) ∈ insertEntry ts k e) :
    (kq, lq) ∈ ts ∨ (kq = k ∧ (lq = [e] ∨ ∃ es, (k, es) ∈ ts ∧ lq = es ++ [e])) := by
  induction ts with
  | nil =>
    simp only [insertEntry, List.mem_singleton, Prod.mk.injEq] at h
    exact Or.inr ⟨h.1, Or.inl h.2⟩
  | cons p rest ih =>
    obtain ⟨k0, es⟩ := p
    simp only [insertEntry] at h
    by_cases hk : k0 = k
    · rw [if_pos hk] at h
      rcases List.mem_cons.mp h with h1 | h1
      · rw [Prod.mk.injEq] at h1
        exact Or.inr ⟨h1.1.trans hk, Or.inr ⟨es, by simp [← hk, h1.2]⟩⟩
      · exact Or.inl (List.mem_cons_of_mem _ h1)
    · rw [if_neg hk] at h
      rcases List.mem_cons.mp h with h1 | h1
      · exact Or.inl (h1 ▸ List.mem_cons_self _ _)
      · rcases ih h1 with h2 | ⟨hq, h3⟩
        · exact Or.inl (List.mem_cons_of_mem _ h2)
        · refine Or.inr ⟨hq, h3.imp id ?_⟩
          rintro ⟨es2, hm, hl⟩
          exact ⟨es2, List.mem_cons_of_mem _ hm, hl⟩

theorem foldlPreserve {α β : Type} (P : α → Prop) (f : α → β → α) :
    ∀ (l : List β) (a : α), P a → (∀ x y, P x → P (f x y)) → P (l.foldl f a)
  | [], _, h, _ => h
  | _ :: l, a, h, hs => foldlPreserve P f l (f a _) (hs a _ h) hs

theorem generateTargetsDict_inv (cfg : FilterConfig) (m : Str → Option (List Str))
    (ds : List Str) :
    ∀ k l, (k, l) ∈ generateTargetsDict cfg m ds →
      ¬ k.isEmpty = true
      ∧ ∀ e ∈ l, normalizePath cfg e.source (recPath e.target) = (k, e.applied) := by
  have step : ∀ (ts : Targets) (r : Str × Str × Str),
      (∀ k l, (k, l) ∈ ts → ¬ k.isEmpty = true
        ∧ ∀ e ∈ l, normalizePath cfg e.source (recPath e.target) = (k, e.applied)) →
      (∀ k l, (k, l) ∈ recordStep cfg ts r → ¬ k.isEmpty = true
        ∧ ∀ e ∈ l, normalizePath cfg e.source (recPath e.target) = (k, e.applied)) := by
    intro ts r hts k l hm
    simp only [recordStep] at hm
    split at hm
    · exact hts k l hm
    · rename_i hne
      rcases mem_insertEntry hm with h1 | ⟨hk, h2⟩
      · exact hts k l h1
      · subst hk
        refine ⟨hne, ?_⟩
        have hcentry : normalizePath cfg
            (Entry.mk r.1 r.2.1 r.2.2 (normalizePath cfg r.2.2 (recPath r.1)).2).source
            (recPath (Entry.mk r.1 r.2.1 r.2.2 (normalizePath cfg r.2.2 (recPath r.1)).2).target)
            = ((normalizePath cfg r.2.2 (recPath r.1)).1,
               (Entry.mk r.1 r.2.1 r.2.2 (normalizePath cfg r.2.2 (recPath r.1)).2).applied) :=
          rfl
        rcases h2 with h2 | ⟨es, hmem, hl⟩
        · subst h2
          intro e he
          rw [List.mem_singleton] at he
          subst he
          exact hcentry
        · subst hl
          intro e he
          rcases List.mem_append.mp he with h3 | h3
          · exact (hts _ es hmem).2 e h3
          · rw [List.mem_singleton] at h3
            subst h3
            exact hcentry
  intro k l hm
  refine foldlPreserve
    (fun ts => ∀ k l, (k, l) ∈ ts → ¬ k.isEmpty = true
      ∧ ∀ e ∈ l, normalizePath cfg e.source (recPath e.target) = (k, e.applied))
    _ ds [] (by intro k l h; cases h)
    (fun ts d hts => foldlPreserve _ _ _ ts hts (fun x y hx => step x y hx)) k l hm

/-- C2: for sources requested as the pair a then b, the candidate list of
any normalized key is exactly a's surviving records (in manifest order)
followed by b's (in manifest order), whatever the manifests contain, and
every contributed entry carries its source's name — so candidate order is
caller-specified source priority order first, manifest line order second. -/
theorem priority_order_merge (cfg : FilterConfig) (m : Str → Option (List Str))
    (a b k : Str) (l : List Entry)
    (h : lookupT (generateTargetsDict cfg m [a, b]) k = some l) :
    l = srcEntries cfg m k a ++ srcEntries cfg m k b
    ∧ (∀ e ∈ srcEntries cfg m k a, e.source = a)
    ∧ (∀ e ∈ srcEntries cfg m k b, e.source = b) := by
  refine ⟨?_, srcEntries_source cfg m k a, srcEntries_source cfg m k b⟩
  have hc := lookupT_generateTargetsDict cfg m [a, b] k
  rw [h] at hc
  simp only [List.flatMap_cons, List.flatMap_nil, List.append_nil, optApp] at hc
  split at hc
  · exact Option.noConfusion hc
  · rw [Option.some.injEq] at hc
    rw [hc]
    rfl

/-- C2 witness: with dpreview then wikimedia both offering cam1.jpg, the
candidate list is dpreview's entry followed by wikimedia's. -/
theorem priority_order_merge_witness :
    lookupT (generateTargetsDict cfg0 mA [strOf "dpreview", strOf "wikimedia"])
        (strOf "cam1.jpg")
      = some [⟨strOf "data/cam1.jpg", commandFor (strOf "dpreview") (strOf "--id 1"),
               strOf "dpreview", []⟩,
              ⟨strOf "data/cam1.jpg", commandFor (strOf "wikimedia") (strOf "--id 2"),
               strOf "wikimedia", []⟩]
    ∧ [(⟨strOf "data/cam1.jpg", commandFor (strOf "dpreview") (strOf "--id 1"),
         strOf "dpreview", []⟩ : Entry),
       ⟨strOf "data/cam1.jpg", commandFor (strOf "wikimedia") (strOf "--id 2"),
        strOf "wikimedia", []⟩]
        = srcEntries cfg0 mA (strOf "cam1.jpg") (strOf "dpreview")
          ++ srcEntries cfg0 mA (strOf "cam1.jpg") (strOf "wikimedia") := by
  have h : lookupT (generateTargetsDict cfg0 mA [strOf "dpreview", strOf "wikimedia"])
      (strOf "cam1.jpg")
      = some [⟨strOf "data/cam1.jpg", commandFor (strOf "dpreview") (strOf "--id 1"),
               strOf "dpreview", []⟩,
              ⟨strOf "data/cam1.jpg", commandFor (strOf "wikimedia") (strOf "--id 2"),
               strOf "wikimedia", []⟩] := by decide
  exact ⟨h, (priority_order_merge cfg0 mA (strOf "dpreview") (strOf "wikimedia")
    (strOf "cam1.jpg") _ h).1⟩

theorem checkIgnores_match (igs : List Str) (cur : Str) (app : List Applied)
    (pat c : Str) (hmem : pat ∈ igs) (hc : reCompileL pat = some c)
    (hs : containsSub c cur = true) :
    (checkIgnores igs cur app).1 = [] := by
  induction igs generalizing app with
  | nil => cases hmem
  | cons q rest ih =>
    rcases List.mem_cons.mp hmem with h1 | h1
    · subst h1
      simp [checkIgnores, hc, hs]
    · simp only [checkIgnores]
      cases hq : reCompileL q with
      | none => exact ih app h1
      | some cq =>
        by_cases hcs : containsSub cq cur = true
        · simp [hcs]
        · simp only [hcs, if_false, Bool.false_eq_true, if_neg]
          exact ih app h1

/-! Emission lemmas: the Makefile branch of main always raises while
processing the first resolved target. -/

theorem unpack3_toTuple (e : Entry) : unpack3 e.toTuple = .error valueErrMany := rfl

theorem emitGroup_crash (st : EmitState) (k : Str) (e : Entry) (es : List Entry) :
    emitGroup st (k, e :: es) =
      ({ out := st.out ++ [escDollar e.target ++ headerSuffix, mkdirLine] ++
           (if es.isEmpty then []
            else [strOf "# Sources: " ++ joinWith (strOf ", ") ((e :: es).map Entry.source)]),
         dirDeps :=
           if !(dirname e.target).isEmpty && dirname e.target ≠ strOf "data" then
             insertDir st.dirDeps (dirname e.target) e.target
           else st.dirDeps },
       some valueErrMany) := by
  cases es with
  | nil => simp [emitGroup, unpack3_toTuple]
  | cons e2 rest => simp [emitGroup, emitCmds, unpack3_toTuple]

theorem emitLoop_crash (st : EmitState) (k : Str) (e : Entry) (es : List Entry)
    (rest : List (Str × List Entry)) :
    emitLoop ((k, e :: es) :: rest) st =
      ({ out := st.out ++ [escDollar e.target ++ headerSuffix, mkdirLine] ++
           (if es.isEmpty then []
            else [strOf "# Sources: " ++ joinWith (strOf ", ") ((e :: es).map Entry.source)]),
         dirDeps :=
           if !(dirname e.target).isEmpty && dirname e.target ≠ strOf "data" then
             insertDir st.dirDeps (dirname e.target) e.target
           else st.dirDeps },
       some valueErrMany) := by
  simp [emitLoop, emitGroup_crash]

/-- Whenever resolution produced at least one target, the Makefile branch
prints the preamble, the first target's header (built from the first
candidate's original target path) and the mkdir action, for several
candidates also the sources comment, records at most the first target's
parent directory, and then raises the unpacking ValueError. -/
theorem emitMakefile_first_group (cfg : FilterConfig) (m : Str → Option (List Str))
    (ds : List Str) (k : Str) (e : Entry) (es : List Entry)
    (rest : List (Str × List Entry))
    (h : generateTargetsDict cfg m ds = (k, e :: es) :: rest) :
    emitMakefile cfg m ds =
      ({ out := preambleLines ds ++ [escDollar e.target ++ headerSuffix, mkdirLine] ++
           (if es.isEmpty then []
            else [strOf "# Sources: " ++ joinWith (strOf ", ") ((e :: es).map Entry.source)]),
         dirDeps :=
           if !(dirname e.target).isEmpty && dirname e.target ≠ strOf "data" then
             [(dirname e.target, [e.target])]
           else [] },
       some valueErrMany) := by
  simp only [emitMakefile, h, emitLoop_crash, insertDir]

theorem escDollar_count (s : Str) : (escDollar s).count '$' = 2 * s.count '$' := by
  induction s with
  | nil => simp [escDollar]
  | cons c r ih =>
    by_cases h : c = '$'
    · subst h
      simp [escDollar, List.count_cons, ih]
      omega
    · simp [escDollar, h, List.count_cons, ih]

/-- C9: dollars in emitted paths and directory names are consistently
doubled: escaping doubles the dollar count of any string; the rule header
that the Makefile branch emits is the escaped first-candidate target; and
the directory-targets block applies the same escaping to the directory in
the .PHONY declaration, the aggregate rule header and every dependency in
its (sorted) list, as the concrete aggregate block shows (the echo
message, which references no dependency, keeps the raw name). -/
theorem dollar_escaping :
    (∀ s : Str, (escDollar s).count '$' = 2 * s.count '$')
    ∧ (∀ cfg m ds k e es rest, generateTargetsDict cfg m ds = (k, e :: es) :: rest →
        (escDollar e.target ++ headerSuffix) ∈ (emitMakefile cfg m ds).1.out)
    ∧ emitDirSection [(strOf "data/de$v", [strOf "data/de$v/b.jpg", strOf "data/de$v/a$.jpg"])]
        = [strOf ".PHONY: data/de$$v", [],
           strOf "data/de$$v: data/de$$v/a$$.jpg data/de$$v/b.jpg",
           strOf "\t@echo \"Downloaded 2 files to data/de$v\"", []] := by
  refine ⟨escDollar_count, ?_, by decide⟩
  intro cfg m ds k e es rest h
  rw [emitMakefile_first_group cfg m ds k e es rest h]
  simp

/-- C9 witness: a concrete target containing dollars is emitted with every
dollar doubled in its header line. -/
theorem dollar_escaping_witness :
    escDollar (strOf "data/we$ird/a$.jpg") ++ headerSuffix
        ∈ (emitMakefile cfg0 mS [strOf "s"]).1.out
    ∧ escDollar (strOf "data/we$ird/a$.jpg") = strOf "data/we$$ird/a$$.jpg" :=
  ⟨dollar_escaping.2.1 cfg0 mS [strOf "s"] (strOf "we$ird/a$.jpg")
    ⟨strOf "data/we$ird/a$.jpg", commandFor (strOf "s") (strOf "--x"), strOf "s", []⟩
    [] [] (by decide), by decide⟩

/-- C10: whenever resolution produced at least one target, the emitted
rule header is built from the first (highest-priority) candidate's
original pre-filter target path — not from the normalized grouping key
and not from any later candidate's original path, which never appears as
a rule target — and the directory group records that same original path;
the whole output is the preamble, that single header, the mkdir line, the
sources comment when there are several candidates, and the aborting
ValueError. -/
theorem rule_header_first_candidate (cfg : FilterConfig) (m : Str → Option (List Str))
    (ds : List Str) (k : Str) (e : Entry) (es : List Entry)
    (rest : List (Str × List Entry))
    (h : generateTargetsDict cfg m ds = (k, e :: es) :: rest) :
    emitMakefile cfg m ds =
      ({ out := preambleLines ds ++ [escDollar e.target ++ headerSuffix, mkdirLine] ++
           (if es.isEmpty then []
            else [strOf "# Sources: " ++ joinWith (strOf ", ") ((e :: es).map Entry.source)]),
         dirDeps :=
           if !(dirname e.target).isEmpty && dirname e.target ≠ strOf "data" then
             [(dirname e.target, [e.target])]
           else [] },
       some valueErrMany) :=
  emitMakefile_first_group cfg m ds k e es rest h

/-- C10 witness: with a replace filter rewriting cam to x, the two
candidates' original paths data/cam1.jpg and data/x1.jpg share the
normalized key x1.jpg, and the emitted header names the first candidate's
original data/cam1.jpg; neither the key nor data/x1.jpg appears as a rule
target. -/
theorem rule_header_first_candidate_witness :
    emitMakefile cfgR mR [strOf "dpreview", strOf "wikimedia"]
      = ({ out := preambleLines [strOf "dpreview", strOf "wikimedia"]
             ++ [escDollar (strOf "data/cam1.jpg") ++ headerSuffix, mkdirLine]
             ++ [strOf "# Sources: dpreview, wikimedia"],
           dirDeps := [] }, some valueErrMany) := by
  rw [rule_header_first_candidate cfgR mR [strOf "dpreview", strOf "wikimedia"]
    (strOf "x1.jpg")
    ⟨strOf "data/cam1.jpg", commandFor (strOf "dpreview") (strOf "--id 1"),
      strOf "dpreview", [Applied.replace (strOf "cam") (strOf "x")]⟩
    [⟨strOf "data/x1.jpg", commandFor (strOf "wikimedia") (strOf "--id 9"),
      strOf "wikimedia", []⟩]
    [] (by decide)]
  decide

/-- C1: contrary to the claim, the Rule Synthesizer emits no command at
all: the candidate tuples carry four components while the emission code
unpacks them into three names, so both the single-candidate branch and
the OR-chain loop raise ValueError after the header and mkdir lines, and
neither a bare command nor a command with the fallback connector ever
appears in the output. -/
theorem rule_synthesis_raises_before_commands :
    ((emitMakefile cfg0 mA [strOf "dpreview"]).2 = some valueErrMany
      ∧ ∀ line ∈ (emitMakefile cfg0 mA [strOf "dpreview"]).1.out,
          line ≠ '\t' :: commandFor (strOf "dpreview") (strOf "--id 1"))
    ∧ ((emitMakefile cfg0 mA [strOf "dpreview", strOf "wikimedia"]).2 = some valueErrMany
      ∧ ∀ line ∈ (emitMakefile cfg0 mA [strOf "dpreview", strOf "wikimedia"]).1.out,
          line ≠ '\t' :: (commandFor (strOf "dpreview") (strOf "--id 1") ++ strOf " || \\")
          ∧ line ≠ '\t' :: commandFor (strOf "wikimedia") (strOf "--id 2")) := by
  decide

/-- C4: contrary to the claim, no directory aggregate rule is ever
emitted: with two targets under data/device the per-target loop raises
while emitting the first rule, so only the first target's parent
directory is ever recorded and the output contains neither a .PHONY
declaration nor the data/device aggregate header. -/
theorem directory_rules_never_emitted :
    (emitMakefile cfg0 mD [strOf "s"]).2 = some valueErrMany
    ∧ (emitMakefile cfg0 mD [strOf "s"]).1.dirDeps
        = [(strOf "data/device", [strOf "data/device/a.jpg"])]
    ∧ ∀ line ∈ (emitMakefile cfg0 mD [strOf "s"]).1.out,
        ¬ (strOf ".PHONY: ").isPrefixOf line
        ∧ ¬ (strOf "data/device: ").isPrefixOf line := by
  decide

/-- C3: a record whose fully-rewritten path matches some configured valid
ignore pattern normalizes to the empty key, and the record loop skips
empty keys, so it contributes to no resolved target; consequently every
stored key is non-empty, every stored candidate normalizes to its own
key, the JSON dump (a per-entry image of the stored targets) has no entry
for it, and every path recorded in a directory group is the target of
some stored candidate. -/
theorem ignored_records_excluded (cfg : FilterConfig) (m : Str → Option (List Str))
    (ds : List Str) :
    (∀ k l, (k, l) ∈ generateTargetsDict cfg m ds →
        ¬ k.isEmpty = true
        ∧ ∀ e ∈ l, normalizePath cfg e.source (recPath e.target) = (k, e.applied))
    ∧ (∀ k l, (k, l) ∈ dumpTargets (generateTargetsDict cfg m ds) → ¬ k.isEmpty = true)
    ∧ (∀ src p pat c, pat ∈ cfg.ignoreFilters → reCompileL pat = some c →
        containsSub c (cfg.replaceFilters.foldl replaceStep (p, [])).1 = true →
        (normalizePath cfg src p).1 = [])
    ∧ (∀ ts r, (normalizePath cfg r.2.2 (recPath r.1)).1 = [] → recordStep cfg ts r = ts)
    ∧ (∀ d tl t, (d, tl) ∈ (emitMakefile cfg m ds).1.dirDeps → t ∈ tl →
        ∃ k es, (k, es) ∈ generateTargetsDict cfg m ds ∧ ∃ e ∈ es, e.target = t) := by
  refine ⟨generateTargetsDict_inv cfg m ds, ?_, ?_, ?_, ?_⟩
  · intro k l hm
    simp only [dumpTargets, List.mem_map] at hm
    obtain ⟨⟨k0, l0⟩, hm0, he⟩ := hm
    have hk : k = k0 := by
      have := congrArg Prod.fst he
      simpa using this.symm
    subst hk
    exact (generateTargetsDict_inv cfg m ds k l0 hm0).1
  · intro src p pat c hmem hc hs
    exact checkIgnores_match cfg.ignoreFilters _ _ pat c hmem hc hs
  · intro ts r h
    simp [recordStep, h]
  · cases hgen : generateTargetsDict cfg m ds with
    | nil =>
      intro d tl t hd ht
      simp [emitMakefile, hgen, emitLoop] at hd
    | cons g rest =>
      obtain ⟨k0, es0⟩ := g
      cases es0 with
      | nil =>
        intro d tl t hd ht
        simp [emitMakefile, hgen, emitLoop, emitGroup] at hd
      | cons e0 es0 =>
        intro d tl t hd ht
        rw [emitMakefile_first_group cfg m ds k0 e0 es0 rest hgen] at hd
        simp only at hd
        split at hd
        · rw [List.mem_singleton, Prod.mk.injEq] at hd
          rw [hd.2, List.mem_singleton] at ht
          subst ht
          exact ⟨k0, e0 :: es0, List.mem_cons_self _ _,
            e0, List.mem_cons_self _ _, rfl⟩
        · cases hd

/-- C3 witness: the record shot.tmp of source s, with an ignore filter
tmp, normalizes to the empty key and the resulting target dictionary is
empty. -/
theorem ignored_records_excluded_witness :
    (normalizePath cfgI [] (strOf "shot.tmp")).1 = []
    ∧ generateTargetsDict cfgI mT [strOf "s"] = [] := by
  constructor
  · exact (ignored_records_excluded cfgI mT [strOf "s"]).2.2.1 [] (strOf "shot.tmp")
      (strOf "tmp") (strOf "tmp") (by decide) (by decide) (by decide)
  · decide

end BuildMakefile
